import Mathlib

set_option maxRecDepth 8000

/-!
A shallow embedding of the symbolic prime-field value engine of `r1cs-std`
(`src/fields/fp/mod.rs`) and of the BLS12 pairing-precomputation skeleton
(`src/groups/curves/short_weierstrass/bls12/mod.rs`), together with proofs
about the embedded operations.

The external `ark-relations` constraint-system service is modelled as an
explicit state record `ConstraintSystem`: registering a linear combination
(`new_lc`) appends to `lcs`, allocating a witness variable
(`new_witness_variable`) appends to `witValues`, and enforcing a rank-one
constraint (`enforce_r1cs_constraint`) appends to `constraints`.  `Variable`
mirrors `ark_relations::gr1cs::Variable` in the cases used by the code under
study: the constant `One`, witness variables, and registered symbolic linear
combinations.  The Builder's `compactify` (sort plus merge of duplicate
terms) is omitted: it preserves the evaluation of a linear combination, and
every statement below about the content of a linear combination is phrased
through `evalLC` or through counts of registered combinations, both of which
are invariant under compaction.

An `AllocatedFp` in the source carries a `ConstraintSystemRef` which is
either a real shared reference or `ConstraintSystemRef::None`.  All values in
one computation share at most one real system, so the embedding threads a
single `ConstraintSystem` state and keeps, per value, only the flag
`csSome` recording whether the value's reference is a real one (`true`) or
`None` (`false`, the state of naked constants).
-/

inductive Variable where
  | one : Variable
  | wit : Nat → Variable
  | slc : Nat → Variable
deriving DecidableEq

/-- A sparse linear combination, mirroring `LinearCombination<F>`:
a list of (coefficient, variable) terms. -/
abbrev LC (F : Type) : Type := List (F × Variable)

/-- The state of the external constraint system (`ark-relations` gr1cs),
modelled from its contract in the spec: it owns the witness-variable table,
the registered linear combinations and the enforced rank-one constraints.
`numConstAllocs` counts allocations made in `AllocationMode::Constant`
(each such allocation registers one linear combination `(c, One)`), and
`inFieldAsserts` records the bit-strings on which the external
`Boolean::enforce_in_field_le` range assertion has been requested. -/
structure ConstraintSystem (F : Type) where
  numWitness : Nat
  witValues : List (Option F)
  lcs : List (LC F)
  constraints : List (LC F × LC F × LC F)
  numConstAllocs : Nat
  inFieldAsserts : List (List (LC F))
deriving DecidableEq

def emptyCS (F : Type) : ConstraintSystem F :=
  { numWitness := 0, witValues := [], lcs := [], constraints := [],
    numConstAllocs := 0, inFieldAsserts := [] }

/-- `ConstraintSystemRef::new_lc`: register a linear combination and return
the fresh symbolic variable standing for it. -/
def ConstraintSystem.newLc {F : Type} (cs : ConstraintSystem F) (lc : LC F) :
    Variable × ConstraintSystem F :=
  (Variable.slc cs.lcs.length, { cs with lcs := cs.lcs ++ [lc] })

/-- `ConstraintSystemRef::new_witness_variable`: allocate a fresh witness
variable carrying an optional concrete value (absent in setup-only mode). -/
def ConstraintSystem.newWitnessVariable {F : Type} (cs : ConstraintSystem F)
    (v : Option F) : Variable × ConstraintSystem F :=
  (Variable.wit cs.numWitness,
   { cs with numWitness := cs.numWitness + 1, witValues := cs.witValues ++ [v] })

/-- `ConstraintSystemRef::enforce_r1cs_constraint`: append the rank-one
constraint `a · b = c`. -/
def ConstraintSystem.enforce {F : Type} (cs : ConstraintSystem F)
    (a b c : LC F) : ConstraintSystem F :=
  { cs with constraints := cs.constraints ++ [(a, b, c)] }

/-- Evaluate a linear combination under an assignment of field values to
variables. -/
def evalLC {F : Type} [Semiring F] (a : Variable → F) (l : LC F) : F :=
  (l.map (fun t => t.1 * a t.2)).sum

/-- A rank-one constraint `A · B = C` is satisfied by an assignment. -/
def satC {F : Type} [Semiring F] (a : Variable → F)
    (c : LC F × LC F × LC F) : Prop :=
  evalLC a c.1 * evalLC a c.2.1 = evalLC a c.2.2

/-- The assignment gives every allocated witness variable its stored value. -/
def witConsistent {F : Type} (a : Variable → F) (cs : ConstraintSystem F) : Prop :=
  ∀ i w, cs.witValues.getD i none = some w → a (Variable.wit i) = w

/-- The assignment gives every registered linear-combination variable the
value of its combination. -/
def lcsConsistent {F : Type} [Semiring F] (a : Variable → F)
    (cs : ConstraintSystem F) : Prop :=
  ∀ i, i < cs.lcs.length → a (Variable.slc i) = evalLC a (cs.lcs.getD i [])

/-- Every enforced constraint is satisfied by the assignment. -/
def satAll {F : Type} [Semiring F] (a : Variable → F)
    (cs : ConstraintSystem F) : Prop :=
  ∀ c ∈ cs.constraints, satC a c

/-- Field value of a boolean, `F::from(b as u8)`. -/
def b2f {F : Type} [Zero F] [One F] (b : Bool) : F := if b then 1 else 0

/-- Modelled from the spec: the external boolean-gadget primitive (the
`Boolean` contract of §6: read current value, read a linear-combination
view, detect compile-time-constant booleans, negate).  A boolean is either a
compile-time constant or a variable-backed value with an optional witness
and a linear-combination view. -/
inductive BoolVar (F : Type) where
  | bconst : Bool → BoolVar F
  | bvar : Option Bool → LC F → BoolVar F
deriving DecidableEq

/-- The linear-combination view of a boolean (`Boolean::lc`). -/
def BoolVar.lc {F : Type} [One F] : BoolVar F → LC F
  | .bconst true => [(1, Variable.one)]
  | .bconst false => []
  | .bvar _ l => l

/-- The optional witness of a boolean (`Boolean::value`). -/
def BoolVar.value {F : Type} : BoolVar F → Option Bool
  | .bconst b => some b
  | .bvar v _ => v

/-- Modelled from the spec: boolean negation flips the witness and takes the
complementary linear-combination view `1 − lc`. -/
def BoolVar.notB {F : Type} [One F] [Neg F] : BoolVar F → BoolVar F
  | .bconst b => .bconst (!b)
  | .bvar v l => .bvar (v.map (fun b => !b)) ((1, Variable.one) :: l.map (fun t => (-t.1, t.2)))

/-- `AllocatedFp<F>`: an optional witness, the variable handle, and whether
the value's `ConstraintSystemRef` is a real reference (`true`) or `None`. -/
structure AllocatedFp (F : Type) where
  value : Option F
  var : Variable
  csSome : Bool
deriving DecidableEq

/-- `AllocatedFp::new_witness`: allocate a fresh witness variable. -/
def AllocatedFp.newWitness {F : Type} (cs : ConstraintSystem F) (v : Option F) :
    AllocatedFp F × ConstraintSystem F :=
  let t := cs.newWitnessVariable v
  (⟨v, t.1, true⟩, t.2)

/-- `AllocatedFp::new_constant` (allocation in `AllocationMode::Constant`):
register the linear combination `(c, One)` and return its variable.
`numConstAllocs` keeps count of these allocations. -/
def AllocatedFp.newConstant {F : Type} (cs : ConstraintSystem F) (c : F) :
    AllocatedFp F × ConstraintSystem F :=
  let t := cs.newLc [(c, Variable.one)]
  (⟨some c, t.1, true⟩, { t.2 with numConstAllocs := t.2.numConstAllocs + 1 })

/-- `AllocatedFp::add`: no constraint, one linear combination. -/
def AllocatedFp.add {F : Type} [Semiring F] (x y : AllocatedFp F)
    (cs : ConstraintSystem F) : AllocatedFp F × ConstraintSystem F :=
  let v : Option F :=
    match x.value, y.value with
    | some a, some b => some (a + b)
    | _, _ => none
  let t := cs.newLc [(1, x.var), (1, y.var)]
  (⟨v, t.1, x.csSome⟩, t.2)

/-- `AllocatedFp::sub`: no constraint, one linear combination
(`lc_diff![self.variable, other.variable]`). -/
def AllocatedFp.sub {F : Type} [Ring F] (x y : AllocatedFp F)
    (cs : ConstraintSystem F) : AllocatedFp F × ConstraintSystem F :=
  let v : Option F :=
    match x.value, y.value with
    | some a, some b => some (a - b)
    | _, _ => none
  let t := cs.newLc [(1, x.var), (-1, y.var)]
  (⟨v, t.1, x.csSome⟩, t.2)

/-- `AllocatedFp::mul`: allocate the product as a fresh witness and enforce
the single rank-one constraint `self · other = product`. -/
def AllocatedFp.mul {F : Type} [Semiring F] (x y : AllocatedFp F)
    (cs : ConstraintSystem F) : AllocatedFp F × ConstraintSystem F :=
  let pv : Option F :=
    match x.value, y.value with
    | some a, some b => some (a * b)
    | _, _ => none
  let t := AllocatedFp.newWitness cs pv
  let cs1 := t.2.enforce [(1, x.var)] [(1, y.var)] [(1, t.1.var)]
  (t.1, cs1)

/-- `AllocatedFp::add_constant`: a no-op when the constant is zero, else one
linear combination `(1, self) + (c, One)` and no constraint. -/
def AllocatedFp.addConstant {F : Type} [Semiring F] [DecidableEq F]
    (x : AllocatedFp F) (c : F) (cs : ConstraintSystem F) :
    AllocatedFp F × ConstraintSystem F :=
  if c = 0 then (x, cs)
  else
    let v := x.value.map (fun a => a + c)
    let t := cs.newLc [(1, x.var), (c, Variable.one)]
    (⟨v, t.1, x.csSome⟩, t.2)

/-- `AllocatedFp::sub_constant` delegates to `add_constant` with `-c`. -/
def AllocatedFp.subConstant {F : Type} [Ring F] [DecidableEq F]
    (x : AllocatedFp F) (c : F) (cs : ConstraintSystem F) :
    AllocatedFp F × ConstraintSystem F :=
  AllocatedFp.addConstant x (-c) cs

/-- `AllocatedFp::mul_constant`: a no-op when the constant is one, else one
linear combination `(c, self)` and no constraint. -/
def AllocatedFp.mulConstant {F : Type} [Semiring F] [DecidableEq F]
    (x : AllocatedFp F) (c : F) (cs : ConstraintSystem F) :
    AllocatedFp F × ConstraintSystem F :=
  if c = 1 then (x, cs)
  else
    let v := x.value.map (fun a => a * c)
    let t := cs.newLc [(c, x.var)]
    (⟨v, t.1, x.csSome⟩, t.2)

/-- `AllocatedFp::negate` (via `negate_in_place`): rebind to the fresh
combination `0 − self`; no constraint. -/
def AllocatedFp.negate {F : Type} [Ring F] (x : AllocatedFp F)
    (cs : ConstraintSystem F) : AllocatedFp F × ConstraintSystem F :=
  let t := cs.newLc [(-1, x.var)]
  (⟨x.value.map (fun a => -a), t.1, x.csSome⟩, t.2)

/-- `AllocatedFp::inverse`: allocate a witness equal to
`self.value.inverse().unwrap_or(F::ZERO)` (in Lean's fields `0⁻¹ = 0`, which
coincides with `unwrap_or(ZERO)`) and enforce the single constraint
`self · inverse = One`. -/
def AllocatedFp.inverse {F : Type} [Field F] (x : AllocatedFp F)
    (cs : ConstraintSystem F) : AllocatedFp F × ConstraintSystem F :=
  let v := x.value.map (fun a => a⁻¹)
  let t := AllocatedFp.newWitness cs v
  let cs1 := t.2.enforce [(1, x.var)] [(1, t.1.var)] [(1, Variable.one)]
  (t.1, cs1)

/-- `AllocatedFp::mul_equals`: the single constraint `self · other = result`. -/
def AllocatedFp.mulEquals {F : Type} [Semiring F] (x y r : AllocatedFp F)
    (cs : ConstraintSystem F) : ConstraintSystem F :=
  cs.enforce [(1, x.var)] [(1, y.var)] [(1, r.var)]

/-- `AllocatedFp::square_equals`: the single constraint `self · self = result`. -/
def AllocatedFp.squareEquals {F : Type} [Semiring F] (x r : AllocatedFp F)
    (cs : ConstraintSystem F) : ConstraintSystem F :=
  cs.enforce [(1, x.var)] [(1, x.var)] [(1, r.var)]

/-- `AllocatedFp::conditional_enforce_equal` with `should_enforce` the
constant `Boolean::TRUE` (whose linear-combination view is `(1, One)`):
the single constraint `(self − other) · 1 = 0`. -/
def AllocatedFp.enforceEqualTrue {F : Type} [Ring F] (x y : AllocatedFp F)
    (cs : ConstraintSystem F) : ConstraintSystem F :=
  cs.enforce [(1, x.var), (-1, y.var)] [(1, Variable.one)] []

/-- `AllocatedFp::is_neq`: allocate the indicator `is_not_equal` (a boolean
witness without booleanity check), allocate the auxiliary `multiplier`
witness (the inverse of the difference when the values differ, `1` when
equal), register the `difference` combination, and enforce the two rank-one
constraints `(self − other) · multiplier = is_not_equal` and
`(self − other) · (1 − is_not_equal) = 0`. -/
def AllocatedFp.isNeq {F : Type} [Field F] [DecidableEq F]
    (x y : AllocatedFp F) (cs : ConstraintSystem F) :
    BoolVar F × ConstraintSystem F :=
  let bval : Option Bool :=
    match x.value, y.value with
    | some a, some b => some (decide (a ≠ b))
    | _, _ => none
  let tb := cs.newWitnessVariable (bval.map b2f)
  let mval : Option F :=
    match x.value, y.value with
    | some a, some b => some (if a ≠ b then (a - b)⁻¹ else 1)
    | _, _ => none
  let tm := tb.2.newWitnessVariable mval
  let td := tm.2.newLc [(1, x.var), (-1, y.var)]
  let isne : BoolVar F := .bvar bval [(1, tb.1)]
  let cs1 := td.2.enforce [(1, td.1)] [(1, tm.1)] isne.lc
  let cs2 := cs1.enforce [(1, td.1)] isne.notB.lc []
  (isne, cs2)

/-- `AllocatedFp::is_eq` is the negation of `is_neq`. -/
def AllocatedFp.isEq {F : Type} [Field F] [DecidableEq F]
    (x y : AllocatedFp F) (cs : ConstraintSystem F) :
    BoolVar F × ConstraintSystem F :=
  let t := AllocatedFp.isNeq x y cs
  (t.1.notB, t.2)

/-- `AllocatedFp::add_many`.  The outer `Option` is `none` exactly when the
source panics: a nonempty input all of whose elements carry a `None`
constraint-system reference makes `cs.new_lc(..).unwrap()` unwrap an error.
The inner `Option` is the function's `Option` result (`None` for an empty
iterator, before any system interaction). -/
def AllocatedFp.addMany {F : Type} [Semiring F] (l : List (AllocatedFp F))
    (cs : ConstraintSystem F) :
    Option (Option (AllocatedFp F) × ConstraintSystem F) :=
  let csSome := l.any (fun x => x.csSome)
  let hasValue := l.all (fun x => x.value.isSome)
  let v := l.foldl (fun acc x => acc + x.value.getD 0) 0
  if l.isEmpty then some (none, cs)
  else if csSome then
    let t := cs.newLc (l.map (fun x => ((1 : F), x.var)))
    some (some ⟨if hasValue then some v else none, t.1, true⟩, t.2)
  else none

/-- `AllocatedFp::linear_combination`.  The outer `Option` is `none` when the
source panics: `zip_eq` on sequences of different lengths, or the
`new_lc(..).unwrap()` on a `None` reference.  The inner `Option` is the
function's `Option` result (`None` for empty input). -/
def AllocatedFp.linearCombination {F : Type} [Semiring F]
    (coeffs : List F) (l : List (AllocatedFp F)) (cs : ConstraintSystem F) :
    Option (Option (AllocatedFp F) × ConstraintSystem F) :=
  if coeffs.length ≠ l.length then none
  else
    let pairs := coeffs.zip l
    let csSome := l.any (fun x => x.csSome)
    let hasValue := l.all (fun x => x.value.isSome)
    let v := pairs.foldl (fun acc t => acc + t.1 * t.2.value.getD 0) 0
    if l.isEmpty then some (none, cs)
    else if csSome then
      let t := cs.newLc (pairs.map (fun t => (t.1, t.2.var)))
      some (some ⟨if hasValue then some v else none, t.1, true⟩, t.2)
    else none

/-- The accumulator threaded through the loop of `AllocatedFp::inner_product`:
the or-folded constraint-system flag, the witness accumulation, and the term
list destined for the single final linear combination. -/
structure IPAcc (F : Type) where
  csSome : Bool
  hasValue : Bool
  value : F
  terms : LC F
deriving DecidableEq

/-- The loop body of `AllocatedFp::inner_product`, iterated over the zipped
pairs.  A `none` result is the early `return None` taken when a value-less
constant is read through `v1.value?` / `v2.value?`; mutations of the
constraint system performed before that point persist.  The branch structure
mirrors the source exactly: the `if v1.cs.is_none() && v2.cs.is_none()`
block is not chained by an `else` to the following
`if v1.cs.is_none() / else if / else` chain, so a pair of two
reference-less constants falls through both. -/
def AllocatedFp.ipLoop {F : Type} [Semiring F] :
    List (AllocatedFp F × AllocatedFp F) → IPAcc F → ConstraintSystem F →
    Option (IPAcc F) × ConstraintSystem F
  | [], acc, cs => (some acc, cs)
  | (v1, v2) :: rest, acc, cs =>
    let acc := { acc with csSome := acc.csSome || v1.csSome || v2.csSome }
    let acc :=
      match v1.value, v2.value with
      | some a, some b => { acc with value := acc.value + a * b }
      | _, _ => { acc with hasValue := false }
    if !v1.csSome && !v2.csSome then
      match v1.value, v2.value with
      | some a, some b =>
        let acc := { acc with terms := acc.terms ++ [(a * b, Variable.one)] }
        let acc := { acc with terms := acc.terms ++ [(a, v2.var)] }
        AllocatedFp.ipLoop rest acc cs
      | _, _ => (none, cs)
    else if !v1.csSome then
      match v1.value with
      | some a => AllocatedFp.ipLoop rest { acc with terms := acc.terms ++ [(a, v2.var)] } cs
      | none => (none, cs)
    else if !v2.csSome then
      match v2.value with
      | some b => AllocatedFp.ipLoop rest { acc with terms := acc.terms ++ [(b, v1.var)] } cs
      | none => (none, cs)
    else
      let t := AllocatedFp.mul v1 v2 cs
      AllocatedFp.ipLoop rest { acc with terms := acc.terms ++ [(1, t.1.var)] } t.2

/-- `AllocatedFp::inner_product` over the zipped pairs of the two input
sequences.  The outer `Option` is `none` exactly when the source panics
(`new_lc(..).unwrap()` on a `None` folded reference); the inner `Option` is
the function's `Option` result: `None` on empty input or when a value-less
constant was read. -/
def AllocatedFp.innerProduct {F : Type} [Semiring F]
    (pairs : List (AllocatedFp F × AllocatedFp F)) (cs : ConstraintSystem F) :
    Option (Option (AllocatedFp F)) × ConstraintSystem F :=
  match AllocatedFp.ipLoop pairs ⟨false, true, 0, []⟩ cs with
  | (none, cs1) => (some none, cs1)
  | (some acc, cs1) =>
    if pairs.isEmpty then (some none, cs1)
    else if acc.csSome then
      let t := cs1.newLc acc.terms
      (some (some ⟨if acc.hasValue then some acc.value else none, t.1, true⟩), t.2)
    else (none, cs1)

/-- `FpVar<F>`: a compile-time constant or an allocated variable. -/
inductive FpVar (F : Type) where
  | Constant : F → FpVar F
  | Var : AllocatedFp F → FpVar F
deriving DecidableEq

/-- The `Add` impl for `FpVar` (`impl_ops!`): constant-fold, free
constant path, or `AllocatedFp::add`. -/
def FpVar.add {F : Type} [Semiring F] [DecidableEq F] (x y : FpVar F)
    (cs : ConstraintSystem F) : FpVar F × ConstraintSystem F :=
  match x, y with
  | .Constant c1, .Constant c2 => (.Constant (c1 + c2), cs)
  | .Constant c, .Var v | .Var v, .Constant c =>
    let t := AllocatedFp.addConstant v c cs
    (.Var t.1, t.2)
  | .Var v1, .Var v2 =>
    let t := AllocatedFp.add v1 v2 cs
    (.Var t.1, t.2)

/-- The `Sub` impl for `FpVar` (`impl_ops!`). -/
def FpVar.sub {F : Type} [Ring F] [DecidableEq F] (x y : FpVar F)
    (cs : ConstraintSystem F) : FpVar F × ConstraintSystem F :=
  match x, y with
  | .Constant c1, .Constant c2 => (.Constant (c1 - c2), cs)
  | .Var v, .Constant c =>
    let t := AllocatedFp.subConstant v c cs
    (.Var t.1, t.2)
  | .Constant c, .Var v =>
    let t := AllocatedFp.subConstant v c cs
    let t2 := AllocatedFp.negate t.1 t.2
    (.Var t2.1, t2.2)
  | .Var v1, .Var v2 =>
    let t := AllocatedFp.sub v1 v2 cs
    (.Var t.1, t.2)

/-- The `Mul` impl for `FpVar` (`impl_ops!`): constant-fold, free scalar
path, or the costed `AllocatedFp::mul`. -/
def FpVar.mul {F : Type} [Semiring F] [DecidableEq F] (x y : FpVar F)
    (cs : ConstraintSystem F) : FpVar F × ConstraintSystem F :=
  match x, y with
  | .Constant c1, .Constant c2 => (.Constant (c1 * c2), cs)
  | .Constant c, .Var v | .Var v, .Constant c =>
    let t := AllocatedFp.mulConstant v c cs
    (.Var t.1, t.2)
  | .Var v1, .Var v2 =>
    let t := AllocatedFp.mul v1 v2 cs
    (.Var t.1, t.2)

/-- `FpVar::is_eq` (`EqGadget`): constant-fold, or materialize the constant
side and run the `AllocatedFp` gadget. -/
def FpVar.isEq {F : Type} [Field F] [DecidableEq F] (x y : FpVar F)
    (cs : ConstraintSystem F) : BoolVar F × ConstraintSystem F :=
  match x, y with
  | .Constant c1, .Constant c2 => (.bconst (decide (c1 = c2)), cs)
  | .Constant c, .Var v | .Var v, .Constant c =>
    let t := AllocatedFp.newConstant cs c
    AllocatedFp.isEq t.1 v t.2
  | .Var v1, .Var v2 => AllocatedFp.isEq v1 v2 cs

/-- `FpVar`'s `EqGadget::enforce_equal`, i.e. `conditional_enforce_equal`
with the constant `Boolean::TRUE`: nothing for two constants, otherwise a
constant side is materialized by `AllocatedFp::new_constant` and the single
linear constraint is enforced. -/
def FpVar.enforceEqual {F : Type} [Ring F] [DecidableEq F] (x y : FpVar F)
    (cs : ConstraintSystem F) : ConstraintSystem F :=
  match x, y with
  | .Constant _, .Constant _ => cs
  | .Constant c, .Var v | .Var v, .Constant c =>
    let t := AllocatedFp.newConstant cs c
    AllocatedFp.enforceEqualTrue t.1 v t.2
  | .Var v1, .Var v2 => AllocatedFp.enforceEqualTrue v1 v2 cs

/-- `FpVar::mul_equals`: the four source match arms, in order: all-constant
is a no-op; any shape with at most one true-variable multiplicand checks
`result == self * other` through the free product and `enforce_equal`; two
true variables against a variable result enforce the single rank-one
constraint; two true variables against a constant result first materialize
the constant into a freshly allocated constant variable. -/
def FpVar.mulEquals {F : Type} [Ring F] [DecidableEq F] (x y r : FpVar F)
    (cs : ConstraintSystem F) : ConstraintSystem F :=
  match x, y, r with
  | .Constant _, .Constant _, .Constant _ => cs
  | .Constant _, .Constant _, _ | .Constant _, .Var _, _ | .Var _, .Constant _, _ =>
    let t := FpVar.mul x y cs
    FpVar.enforceEqual r t.1 t.2
  | .Var v1, .Var v2, .Var v3 => AllocatedFp.mulEquals v1 v2 v3 cs
  | .Var v1, .Var v2, .Constant f =>
    let t := AllocatedFp.newConstant cs f
    AllocatedFp.mulEquals v1 v2 t.1 t.2

/-- `FpVar::square_equals`: all-constant is a no-op; a mixed
constant/variable shape materializes the constant side into a freshly
allocated *witness* variable (`AllocatedFp::new_witness`) and enforces the
squaring constraint; two variables enforce it directly. -/
def FpVar.squareEquals {F : Type} [Semiring F] [DecidableEq F] (x r : FpVar F)
    (cs : ConstraintSystem F) : ConstraintSystem F :=
  match x, r with
  | .Constant _, .Constant _ => cs
  | .Constant f, .Var rv =>
    let t := AllocatedFp.newWitness cs (some f)
    AllocatedFp.squareEquals t.1 rv t.2
  | .Var v, .Constant f =>
    let t := AllocatedFp.newWitness cs (some f)
    AllocatedFp.squareEquals v t.1 t.2
  | .Var v1, .Var v2 => AllocatedFp.squareEquals v1 v2 cs

/-- Modelled from the spec: `Boolean::new_witness` (the external boolean
gadget) allocates one boolean-valued witness variable and enforces its
booleanity with one constraint `b · (1 − b) = 0`.  Returns the boolean
together with its underlying variable. -/
def allocBools {F : Type} [Ring F] :
    List (Option Bool) → ConstraintSystem F →
    List (BoolVar F × Variable) × ConstraintSystem F
  | [], cs => ([], cs)
  | v :: rest, cs =>
    let t := cs.newWitnessVariable (v.map b2f)
    let cs1 := t.2.enforce [(1, t.1)] [(1, Variable.one), (-1, t.1)] []
    let r := allocBools rest cs1
    ((BoolVar.bvar v [(1, t.1)], t.1) :: r.1, r.2)

/-- `AllocatedFp::to_non_unique_bits_le` over `ZMod p`.  The parameter `k`
stands for the static constant `F::MODULUS_BIT_SIZE` (the bit length of the
modulus `p`; the theorems pin it by `2 ^ (k − 1) ≤ p < 2 ^ k`).  The source
zips the big-endian bits of the value with those of the modulus and drops
the common leading-zero positions of the modulus, keeping exactly `k` bits;
after the reversal to little-endian order these are the bits
`value.val.testBit 0, …, value.val.testBit (k−1)`.  Each bit is allocated
through `Boolean::new_witness` and the single linear constraint
`0 · 0 = Σᵢ 2ⁱ·bitᵢ − self` is enforced. -/
def AllocatedFp.toNonUniqueBitsLE {p : Nat} [NeZero p] (k : Nat)
    (x : AllocatedFp (ZMod p)) (cs : ConstraintSystem (ZMod p)) :
    List (BoolVar (ZMod p)) × ConstraintSystem (ZMod p) :=
  let bitvals : List (Option Bool) :=
    match x.value with
    | some v => (List.range k).map (fun i => some (Nat.testBit v.val i))
    | none => List.replicate k none
  let r := allocBools bitvals cs
  let coeffs : List (ZMod p) := (List.range r.1.length).map (fun i => 2 ^ i)
  let recon : LC (ZMod p) :=
    coeffs.zip (r.1.map (fun t => t.2)) ++ [(-1, x.var)]
  let cs1 := r.2.enforce [] [] recon
  (r.1.map (fun t => t.1), cs1)

/-- `AllocatedFp::to_bits_le`: the non-unique decomposition followed by
`Boolean::enforce_in_field_le`.  Modelled from the spec: the external
`enforce_in_field_le` asserts that the little-endian bit-string represents
an integer strictly less than the field modulus; the model records the
assertion request on the bit-string in `inFieldAsserts`. -/
def AllocatedFp.toBitsLE {p : Nat} [NeZero p] (k : Nat)
    (x : AllocatedFp (ZMod p)) (cs : ConstraintSystem (ZMod p)) :
    List (BoolVar (ZMod p)) × ConstraintSystem (ZMod p) :=
  let r := AllocatedFp.toNonUniqueBitsLE k x cs
  (r.1, { r.2 with inFieldAsserts := r.2.inFieldAsserts ++ [r.1.map BoolVar.lc] })

/-- `ark_ff::BitIteratorBE` over a little-endian slice of 64-bit limbs: all
`64·len` bits, most significant first (leading zeros of the representation
included). -/
def bitIterBE (limbs : List Nat) : List Bool :=
  (List.range (64 * limbs.length)).reverse.map
    (fun n => Nat.testBit (limbs.getD (n / 64) 0) (n % 64))

/-- A line-coefficient-producing step of the Miller-loop scan: a DOUBLE or
an ADD.  `G2PreparedVar::double` and `G2PreparedVar::add` each return one
coefficient pair, so one step tag stands for one emitted coefficient. -/
inductive EllStep where
  | dbl : EllStep
  | add : EllStep
deriving DecidableEq

/-- The loop skeleton of `G2PreparedVar::from_group_var`: scan
`BitIteratorBE::new(P::X).skip(1)`, push one DOUBLE coefficient on every
bit, and additionally one ADD coefficient on every set bit.  The coordinate
arithmetic of the steps lives in the external `Fp2Var` layer and does not
affect the emitted-coefficient count. -/
def millerSteps (limbs : List Nat) : List EllStep :=
  ((bitIterBE limbs).drop 1).flatMap
    (fun i => if i then [EllStep.dbl, EllStep.add] else [EllStep.dbl])

/-- Bit length of a parameter below `2 ^ 70` (the spec's "bit-length",
made executable for the at-most-64-bit BLS loop parameters): one more than
the highest set bit index. -/
def bitLengthW (n : Nat) : Nat :=
  (List.range 70).foldl (fun acc i => if n.testBit i then i + 1 else acc) 0

/-- Hamming weight of a parameter below `2 ^ 70` (the spec's "Hamming
weight", made executable for the at-most-64-bit BLS loop parameters). -/
def hammingWeightW (n : Nat) : Nat :=
  ((List.range 70).filter (fun i => n.testBit i)).length

/-- The synchronous error type (`SynthesisError`), as far as the modelled
operations can surface it. -/
inductive SynthError where
  | assignmentMissing : SynthError
  | unsatisfiable : SynthError
deriving DecidableEq

/-- Modelled from the spec: `Boolean::enforce_not_equal(&Boolean::TRUE)`
(the external boolean gadget) uses the inverse-witness trick of §4.1 with
the selector `TRUE`: it allocates a `multiplier` witness — the inverse of
`(self − TRUE)` — and enforces `(self − TRUE) · multiplier = 1`.  When the
flag is true the left factor is zero and the constraint is unsatisfiable;
the violation surfaces only at the later satisfiability check, never as a
call-time error. -/
def enforceNotEqualTrue {F : Type} [Field F] (b : BoolVar F)
    (cs : ConstraintSystem F) : Except SynthError (ConstraintSystem F) :=
  let mval : Option F := b.value.map (fun bb => (b2f bb - 1)⁻¹)
  let t := cs.newWitnessVariable mval
  .ok (t.2.enforce (b.lc ++ [(-1, Variable.one)]) [(1, t.1)] [(1, Variable.one)])

/-- The skeleton of `G2PreparedVar::from_group_var`, keeping what is in
`src`: the check `q.infinity.enforce_not_equal(&Boolean::TRUE)` on the
affine input's infinity flag, followed by the double-and-add scan of the
loop parameter, each step emitting one coefficient.  The affine conversion
and the `Fp2Var` coordinate arithmetic are external and modelled from the
spec as coefficient-emitting steps. -/
def G2PreparedVar.fromGroupVar {F : Type} [Field F] (infFlag : BoolVar F)
    (limbs : List Nat) (cs : ConstraintSystem F) :
    Except SynthError (List EllStep × ConstraintSystem F) :=
  match enforceNotEqualTrue infFlag cs with
  | .error e => .error e
  | .ok cs1 => .ok (millerSteps limbs, cs1)

/-- Scenario for the equality gadget: allocate `x` and `y` as witnesses in a
fresh system and run `AllocatedFp::is_eq`. -/
def isEqScenario (F : Type) [Field F] [DecidableEq F] (xv yv : F) :
    BoolVar F × ConstraintSystem F :=
  let tx := AllocatedFp.newWitness (emptyCS F) (some xv)
  let ty := AllocatedFp.newWitness tx.2 (some yv)
  AllocatedFp.isEq tx.1 ty.1 ty.2

/-- The canonical (true-witness) assignment for `isEqScenario`. -/
def isEqAssign (F : Type) [Field F] [DecidableEq F] (xv yv : F) :
    Variable → F := fun v =>
  match v with
  | .one => 1
  | .wit i =>
    if i = 0 then xv
    else if i = 1 then yv
    else if i = 2 then (if xv = yv then 0 else 1)
    else if i = 3 then (if xv = yv then 1 else (xv - yv)⁻¹)
    else 0
  | .slc i => if i = 0 then xv - yv else 0

/-- Scenario for inversion: allocate `x` as a witness in a fresh system and
run `AllocatedFp::inverse`. -/
def inverseScenario (F : Type) [Field F] (xv : F) :
    AllocatedFp F × ConstraintSystem F :=
  let tx := AllocatedFp.newWitness (emptyCS F) (some xv)
  AllocatedFp.inverse tx.1 tx.2

/-- The canonical (true-witness) assignment for `inverseScenario`. -/
def inverseAssign (F : Type) [Field F] (xv : F) : Variable → F := fun v =>
  match v with
  | .one => 1
  | .wit i => if i = 0 then xv else if i = 1 then xv⁻¹ else 0
  | .slc _ => 0

/-- Scenario for the bit decompositions: allocate `x` as a witness in a
fresh system and run `AllocatedFp::to_non_unique_bits_le` with modulus bit
size `k`. -/
def bitsScenario (p k : Nat) [NeZero p] (xv : ZMod p) :
    List (BoolVar (ZMod p)) × ConstraintSystem (ZMod p) :=
  let tx := AllocatedFp.newWitness (emptyCS (ZMod p)) (some xv)
  AllocatedFp.toNonUniqueBitsLE k tx.1 tx.2

/-- Scenario for the canonical bit decomposition (`to_bits_le`). -/
def bitsUScenario (p k : Nat) [NeZero p] (xv : ZMod p) :
    List (BoolVar (ZMod p)) × ConstraintSystem (ZMod p) :=
  let tx := AllocatedFp.newWitness (emptyCS (ZMod p)) (some xv)
  AllocatedFp.toBitsLE k tx.1 tx.2

/-- The failing input for `AllocatedFp::inner_product`: one pair of two
reference-less constants (`ConstraintSystemRef::None`, carried on
`Variable::One` as constants are) followed by one pair of genuine witness
variables. -/
def ipCexPairs : List (AllocatedFp (ZMod 5) × AllocatedFp (ZMod 5)) :=
  [(⟨some 2, Variable.one, false⟩, ⟨some 3, Variable.one, false⟩),
   (⟨some 1, Variable.wit 0, true⟩, ⟨some 1, Variable.wit 1, true⟩)]

/-- The starting state for the `inner_product` failing input: two allocated
witness variables, both of value `1`. -/
def ipCexStart : ConstraintSystem (ZMod 5) :=
  (AllocatedFp.newWitness
    ((AllocatedFp.newWitness (emptyCS (ZMod 5)) (some 1)).2) (some 1)).2

/-- The true-witness assignment for the `inner_product` failing input: every
allocated witness variable receives its stored value, `One` receives `1`. -/
def ipCexAssign : Variable → ZMod 5 := fun v =>
  match v with
  | .one => 1
  | .wit 0 => 1
  | .wit 1 => 1
  | .wit 2 => 1
  | _ => 0

/-- The starting state for the `square_equals` counterexample: one allocated
witness variable of value `4`. -/
def sqCexStart : ConstraintSystem (ZMod 5) :=
  (AllocatedFp.newWitness (emptyCS (ZMod 5)) (some 4)).2

instance : Fact (Nat.Prime 5) := ⟨by norm_num⟩

/-! ### Helper lemmas -/

theorem evalLC_append {F : Type} [Semiring F] (a : Variable → F) (l1 l2 : LC F) :
    evalLC a (l1 ++ l2) = evalLC a l1 + evalLC a l2 := by
  simp [evalLC]

theorem flatMap_step_length (l : List Bool) :
    (l.flatMap (fun i => if i then [EllStep.dbl, EllStep.add] else [EllStep.dbl])).length
      = l.length + l.count true := by
  induction l with
  | nil => rfl
  | cons b t ih =>
    cases b <;> simp [List.flatMap_cons, List.count_cons, ih] <;> omega

theorem bitIterBE_singleton (l : Nat) :
    bitIterBE [l] = (List.range 64).reverse.map (fun n => l.testBit n) := by
  show (List.range (64 * 1)).reverse.map _ = _
  rw [Nat.mul_one]
  refine List.map_congr_left ?_
  intro n hn
  rw [List.mem_reverse, List.mem_range] at hn
  simp [Nat.div_eq_of_lt hn, Nat.mod_eq_of_lt hn]

theorem range_reverse_map_drop_one (f : Nat → Bool) :
    ((List.range 64).reverse.map f).drop 1 = (List.range 63).reverse.map f := by
  rw [show (64 : Nat) = 63 + 1 from rfl, List.range_succ]
  simp

theorem count_true_scanned (l : Nat) :
    ((List.range 63).reverse.map (fun n => l.testBit n)).count true
      = ((List.range 63).filter (fun n => l.testBit n)).length := by
  show List.countP (fun b => b == true) _ = _
  rw [List.countP_map, List.countP_reverse, List.countP_eq_length_filter]
  have hp : ((fun b => b == true) ∘ fun n => l.testBit n) = fun n => l.testBit n := by
    funext n
    simp [Function.comp]
  rw [hp]

theorem foldl_bitLength_keep {g : Nat → Bool} (l2 : List Nat)
    (h : ∀ i ∈ l2, g i = false) (a : Nat) :
    l2.foldl (fun acc i => if g i then i + 1 else acc) a = a := by
  induction l2 generalizing a with
  | nil => rfl
  | cons x t ih =>
    have hx := h x (List.mem_cons_self x t)
    simp only [List.foldl_cons, hx, if_neg (by simp [hx] : ¬ g x = true)]
    exact ih (fun i hi => h i (List.mem_cons_of_mem _ hi)) a

theorem bitLengthW_top_bit (l : Nat) (h1 : l < 2 ^ 64) (h2 : l.testBit 63 = true) :
    bitLengthW l = 64 := by
  have h64 : (List.range 64).foldl (fun acc i => if l.testBit i then i + 1 else acc) 0 = 64 := by
    rw [show (64 : Nat) = 63 + 1 from rfl, List.range_succ, List.foldl_append]
    simp [h2]
  unfold bitLengthW
  rw [show (70 : Nat) = 64 + 6 from rfl, List.range_add, List.foldl_append, h64]
  refine foldl_bitLength_keep _ ?_ 64
  intro i hi
  rw [List.mem_map] at hi
  obtain ⟨x, _, hx⟩ := hi
  refine Nat.testBit_lt_two_pow (lt_of_lt_of_le h1 ?_)
  subst hx
  exact Nat.pow_le_pow_right (by omega) (by omega)

theorem hammingWeightW_top_bit (l : Nat) (h1 : l < 2 ^ 64) (h2 : l.testBit 63 = true) :
    hammingWeightW l = ((List.range 63).filter (fun n => l.testBit n)).length + 1 := by
  unfold hammingWeightW
  rw [show (70 : Nat) = 64 + 6 from rfl, List.range_add, List.filter_append]
  have hhi : (List.filter (fun i => l.testBit i) ((List.range 6).map (fun x => 64 + x))) = [] := by
    rw [List.filter_eq_nil_iff]
    intro a ha
    rw [List.mem_map] at ha
    obtain ⟨x, _, hx⟩ := ha
    simp only [Bool.not_eq_true]
    refine Nat.testBit_lt_two_pow (lt_of_lt_of_le h1 ?_)
    subst hx
    exact Nat.pow_le_pow_right (by omega) (by omega)
  rw [hhi]
  rw [show (64 : Nat) = 63 + 1 from rfl, List.range_succ, List.filter_append]
  simp [h2]

theorem foldl_add_eq_sum {α F : Type} [AddCommMonoid F] (f : α → F) (l : List α) (a : F) :
    l.foldl (fun acc x => acc + f x) a = a + (l.map f).sum := by
  induction l generalizing a with
  | nil => simp
  | cons x t ih => simp [List.foldl_cons, ih, add_assoc]

/-! ### Claim theorems -/

/-- C9: for all compile-time constants `a` and `b`, the `Add`, `Sub`, `Mul`
operators and `is_eq` on the `Constant` variant constant-fold to a
`Constant` (resp. constant boolean) equal to the direct field operation and
leave the constraint system untouched — the returned state is the input
state for every input state, so nothing is registered and nothing is read. -/
theorem fpVar_constant_folding (F : Type) [Field F] [DecidableEq F]
    (c1 c2 : F) (cs : ConstraintSystem F) :
    FpVar.add (.Constant c1) (.Constant c2) cs = (.Constant (c1 + c2), cs) ∧
    FpVar.sub (.Constant c1) (.Constant c2) cs = (.Constant (c1 - c2), cs) ∧
    FpVar.mul (.Constant c1) (.Constant c2) cs = (.Constant (c1 * c2), cs) ∧
    FpVar.isEq (.Constant c1) (.Constant c2) cs = (.bconst (decide (c1 = c2)), cs) :=
  ⟨rfl, rfl, rfl, rfl⟩

/-- C10: `add_constant 0` and `mul_constant 1` are complete no-ops — the
same `AllocatedFp` (same witness, variable handle and constraint-system
flag) and the unchanged state come back; for any other constant the
operation registers exactly one new linear combination (only `lcs` grows, by
the stated combination) and no constraint. -/
theorem addConstant_mulConstant_spec (F : Type) [Field F] [DecidableEq F]
    (x : AllocatedFp F) (cs : ConstraintSystem F) (c : F) :
    AllocatedFp.addConstant x 0 cs = (x, cs) ∧
    AllocatedFp.mulConstant x 1 cs = (x, cs) ∧
    (c ≠ 0 → AllocatedFp.addConstant x c cs =
      (⟨x.value.map (fun a => a + c), Variable.slc cs.lcs.length, x.csSome⟩,
       { cs with lcs := cs.lcs ++ [[(1, x.var), (c, Variable.one)]] })) ∧
    (c ≠ 1 → AllocatedFp.mulConstant x c cs =
      (⟨x.value.map (fun a => a * c), Variable.slc cs.lcs.length, x.csSome⟩,
       { cs with lcs := cs.lcs ++ [[(c, x.var)]] })) := by
  refine ⟨?_, ?_, ?_, ?_⟩
  · simp [AllocatedFp.addConstant]
  · simp [AllocatedFp.mulConstant]
  · intro h
    simp [AllocatedFp.addConstant, h, ConstraintSystem.newLc]
  · intro h
    simp [AllocatedFp.mulConstant, h, ConstraintSystem.newLc]

/-- Witness for C10 at a concrete input: over `ZMod 5` with `c = 2` the
non-trivial `add_constant` branch applies and registers exactly the one
linear combination. -/
theorem addConstant_mulConstant_spec_witness :
    (2 : ZMod 5) ≠ 0 ∧ (2 : ZMod 5) ≠ 1 ∧
    AllocatedFp.addConstant (⟨some 3, Variable.wit 0, true⟩ : AllocatedFp (ZMod 5)) 2 (emptyCS (ZMod 5)) =
      (⟨(some (3 : ZMod 5)).map (fun a => a + 2), Variable.slc (emptyCS (ZMod 5)).lcs.length, true⟩,
       { emptyCS (ZMod 5) with
          lcs := (emptyCS (ZMod 5)).lcs ++ [[(1, Variable.wit 0), (2, Variable.one)]] }) :=
  ⟨by decide, by decide,
   (addConstant_mulConstant_spec (ZMod 5) ⟨some 3, Variable.wit 0, true⟩
     (emptyCS (ZMod 5)) 2).2.2.1 (by decide)⟩

/-- C5 counterexample: for the BLS12-381 loop parameter
`X = 0xd201000000010000` (bit-length 64, Hamming weight 6) the emitted
line-coefficient sequence has length 68, not `(64 − 1) + 6 = 69` as the
claim's formula predicts. -/
theorem millerSteps_bls12_381_cex :
    (millerSteps [0xd201000000010000]).length = 68 ∧
    2 ^ 63 ≤ 0xd201000000010000 ∧ (0xd201000000010000 : Nat) < 2 ^ 64 ∧
    bitLengthW 0xd201000000010000 = 64 ∧
    hammingWeightW 0xd201000000010000 = 6 ∧
    (millerSteps [0xd201000000010000]).length ≠
      (bitLengthW 0xd201000000010000 - 1) + hammingWeightW 0xd201000000010000 := by
  refine ⟨by decide, by decide, by decide, by decide, by decide, by decide⟩

/-- C5 (amended): the scan performs one DOUBLE per scanned bit — all bits of
the 64-bit limb representation except the topmost — plus one ADD per scanned
set bit.  For a parameter whose top representation bit is set (so its
bit-length is 64) the sequence length is
`(bit-length − 1) + (Hamming weight − 1)`. -/
theorem millerSteps_length_top_bit (l : Nat) (h1 : l < 2 ^ 64)
    (h2 : l.testBit 63 = true) :
    (millerSteps [l]).length = (bitLengthW l - 1) + (hammingWeightW l - 1) := by
  have hb := bitLengthW_top_bit l h1 h2
  have hw := hammingWeightW_top_bit l h1 h2
  unfold millerSteps
  rw [bitIterBE_singleton, range_reverse_map_drop_one, flatMap_step_length,
    count_true_scanned, hb, hw]
  simp

/-- Witness for the amended C5 at the BLS12-381 loop parameter. -/
theorem millerSteps_length_top_bit_witness :
    (0xd201000000010000 : Nat) < 2 ^ 64 ∧
    Nat.testBit 0xd201000000010000 63 = true ∧
    (millerSteps [0xd201000000010000]).length =
      (bitLengthW 0xd201000000010000 - 1) + (hammingWeightW 0xd201000000010000 - 1) :=
  ⟨by decide, by decide, millerSteps_length_top_bit 0xd201000000010000 (by decide) (by decide)⟩

/-- C7 counterexample: for the empty sequence (`n = 0`), `add_many` returns
`None` before touching the constraint system, so zero — not one — linear
combinations are registered, refuting "exactly one linear combination
regardless of n". -/
theorem addMany_empty_cex :
    AllocatedFp.addMany ([] : List (AllocatedFp (ZMod 5))) (emptyCS (ZMod 5))
      = some (none, emptyCS (ZMod 5)) ∧
    ¬ ((AllocatedFp.addMany ([] : List (AllocatedFp (ZMod 5))) (emptyCS (ZMod 5))).map
        (fun t => t.2.lcs.length) = some ((emptyCS (ZMod 5)).lcs.length + 1)) := by
  refine ⟨by decide, by decide⟩

/-- C7 (amended): for any *nonempty* sequence of variable terms (at least
one carrying a real constraint-system reference), `add_many` and
`linear_combination` register exactly one new linear combination regardless
of its length and no rank-one constraint; the result's witness is the
(coefficient-weighted) sum of the inputs' witnesses when every input has
one, and is absent — not an error — when any input's witness is absent.
The empty sequence instead yields `None` and an untouched system. -/
theorem addMany_linearCombination_spec (F : Type) [Field F] [DecidableEq F]
    (l : List (AllocatedFp F)) (coeffs : List F) (cs : ConstraintSystem F)
    (hne : l ≠ []) (hcs : ∃ x ∈ l, x.csSome = true)
    (hlen : coeffs.length = l.length) :
    (∃ r cs', AllocatedFp.addMany l cs = some (some r, cs') ∧
      cs'.lcs.length = cs.lcs.length + 1 ∧
      cs'.constraints = cs.constraints ∧
      cs'.numWitness = cs.numWitness ∧
      ((∀ x ∈ l, x.value.isSome) →
        r.value = some ((l.map (fun x => x.value.getD 0)).sum)) ∧
      ((∃ x ∈ l, x.value = none) → r.value = none)) ∧
    (∃ r cs', AllocatedFp.linearCombination coeffs l cs = some (some r, cs') ∧
      cs'.lcs.length = cs.lcs.length + 1 ∧
      cs'.constraints = cs.constraints ∧
      cs'.numWitness = cs.numWitness ∧
      ((∀ x ∈ l, x.value.isSome) →
        r.value = some (((coeffs.zip l).map (fun t => t.1 * t.2.value.getD 0)).sum)) ∧
      ((∃ x ∈ l, x.value = none) → r.value = none)) := by
  have hisE : l.isEmpty = false := by
    cases l with
    | nil => exact absurd rfl hne
    | cons a t => rfl
  have hany : l.any (fun x => x.csSome) = true := List.any_eq_true.mpr hcs
  have hvalSome : (∀ x ∈ l, x.value.isSome) →
      (if l.all (fun x => x.value.isSome)
        then some (l.foldl (fun acc x => acc + x.value.getD 0) 0) else none)
        = some ((l.map (fun x => x.value.getD 0)).sum) := by
    intro hall
    have h1 : l.all (fun x => x.value.isSome) = true :=
      List.all_eq_true.mpr (fun x hx => hall x hx)
    rw [h1, if_pos rfl, foldl_add_eq_sum (fun x => x.value.getD 0) l 0, zero_add]
  have hallFalse : (∃ x ∈ l, x.value = none) →
      l.all (fun x => x.value.isSome) = false := by
    intro hnone
    obtain ⟨x, hx, hv⟩ := hnone
    cases h2 : l.all (fun x => x.value.isSome) with
    | false => rfl
    | true =>
      have := List.all_eq_true.mp h2 x hx
      rw [hv] at this
      simp at this
  constructor
  · have heq : AllocatedFp.addMany l cs = some (some
        ⟨if l.all (fun x => x.value.isSome)
           then some (l.foldl (fun acc x => acc + x.value.getD 0) 0) else none,
         Variable.slc cs.lcs.length, true⟩,
        { cs with lcs := cs.lcs ++ [l.map (fun x => ((1 : F), x.var))] }) := by
      simp [AllocatedFp.addMany, hisE, hany, ConstraintSystem.newLc]
    refine ⟨_, _, heq, by simp, rfl, rfl, hvalSome, ?_⟩
    intro hnone
    simp [hallFalse hnone]
  · have heq : AllocatedFp.linearCombination coeffs l cs = some (some
        ⟨if l.all (fun x => x.value.isSome)
           then some ((coeffs.zip l).foldl (fun acc t => acc + t.1 * t.2.value.getD 0) 0) else none,
         Variable.slc cs.lcs.length, true⟩,
        { cs with lcs := cs.lcs ++ [(coeffs.zip l).map (fun t => (t.1, t.2.var))] }) := by
      simp [AllocatedFp.linearCombination, hisE, hany, hlen, ConstraintSystem.newLc]
    refine ⟨_, _, heq, by simp, rfl, rfl, ?_, ?_⟩
    · intro hall
      have h1 : l.all (fun x => x.value.isSome) = true :=
        List.all_eq_true.mpr (fun x hx => hall x hx)
      rw [h1, if_pos rfl,
        foldl_add_eq_sum (fun t : F × AllocatedFp F => t.1 * t.2.value.getD 0)
          (coeffs.zip l) 0, zero_add]
    · intro hnone
      simp [hallFalse hnone]

/-- Witness for the amended C7: two witness variables over `ZMod 5` with the
weights `1` and `4`; both batched forms register one combination and compute
the expected sums. -/
theorem addMany_linearCombination_spec_witness :
    ([(⟨some 2, Variable.wit 0, true⟩ : AllocatedFp (ZMod 5)), ⟨some 3, Variable.wit 1, true⟩] ≠ []) ∧
    (∃ x ∈ [(⟨some 2, Variable.wit 0, true⟩ : AllocatedFp (ZMod 5)), ⟨some 3, Variable.wit 1, true⟩],
      x.csSome = true) ∧
    (∃ r cs', AllocatedFp.addMany
        [(⟨some 2, Variable.wit 0, true⟩ : AllocatedFp (ZMod 5)), ⟨some 3, Variable.wit 1, true⟩]
        ipCexStart = some (some r, cs') ∧
      cs'.lcs.length = ipCexStart.lcs.length + 1 ∧
      cs'.constraints = ipCexStart.constraints ∧
      cs'.numWitness = ipCexStart.numWitness ∧
      ((∀ x ∈ [(⟨some 2, Variable.wit 0, true⟩ : AllocatedFp (ZMod 5)), ⟨some 3, Variable.wit 1, true⟩],
          x.value.isSome) →
        r.value = some (([(⟨some 2, Variable.wit 0, true⟩ : AllocatedFp (ZMod 5)), ⟨some 3, Variable.wit 1, true⟩].map
          (fun x => x.value.getD 0)).sum)) ∧
      ((∃ x ∈ [(⟨some 2, Variable.wit 0, true⟩ : AllocatedFp (ZMod 5)), ⟨some 3, Variable.wit 1, true⟩],
          x.value = none) → r.value = none)) :=
  ⟨by decide, by decide,
   (addMany_linearCombination_spec (ZMod 5)
      [⟨some 2, Variable.wit 0, true⟩, ⟨some 3, Variable.wit 1, true⟩]
      [1, 4] ipCexStart (by decide) (by decide) (by decide)).1⟩

/-- C3 (code bug): evaluating `AllocatedFp::inner_product` at a paired input
whose first pair consists of two reference-less constants (values `2` and
`3` over `ZMod 5`) and whose second pair is two genuine witness variables of
value `1`.  Because the both-constants branch is not chained by an `else` to
the one-constant branches, the constant pair contributes *two* terms to the
single accumulated linear combination — the product term `(2·3, One)` and
the spurious scalar term `(2, One)` — so under the assignment that maps
`One` to `1` and every allocated witness to its stored value the registered
combination evaluates to `4`, while the function's own accumulated witness
for the result is `2`.  The claim (one bucket per pair: the constant pair
contributes only the single constant product term) is false on this input. -/
theorem innerProduct_constant_pair_bug :
    (AllocatedFp.innerProduct ipCexPairs ipCexStart).1
      = some (some ⟨some 2, Variable.slc 0, true⟩) ∧
    (AllocatedFp.innerProduct ipCexPairs ipCexStart).2.lcs
      = [[((1 : ZMod 5), Variable.one), (2, Variable.one), (1, Variable.wit 2)]] ∧
    (AllocatedFp.innerProduct ipCexPairs ipCexStart).2.witValues
      = [some 1, some 1, some 1] ∧
    ipCexAssign Variable.one = 1 ∧
    ipCexAssign (Variable.wit 0) = 1 ∧
    ipCexAssign (Variable.wit 1) = 1 ∧
    ipCexAssign (Variable.wit 2) = 1 ∧
    evalLC ipCexAssign
      ((AllocatedFp.innerProduct ipCexPairs ipCexStart).2.lcs.getD 0 []) = 4 ∧
    ((4 : ZMod 5) ≠ 2) := by
  refine ⟨by decide, by decide, by decide, by decide, by decide, by decide, by decide,
    by decide, by decide⟩

/-- C4 counterexample: `square_equals` on the shape
(`Constant 2`, `Var r`) over `ZMod 5` — a shape in which the expected
product `2² = 4` is a compile-time constant, so by the claim no constant
variable may be allocated and the check must go through the free
constant-folding or linear path.  Instead the code allocates one fresh
*witness* variable carrying the constant and enforces one genuine squaring
constraint; in particular the claim's "no variable is allocated" prediction
(`numWitness` unchanged) is false. -/
theorem squareEquals_const_var_cex :
    (FpVar.squareEquals (.Constant 2) (.Var ⟨some 4, Variable.wit 0, true⟩) sqCexStart).numWitness
      = sqCexStart.numWitness + 1 ∧
    (FpVar.squareEquals (.Constant 2) (.Var ⟨some 4, Variable.wit 0, true⟩) sqCexStart).numConstAllocs
      = sqCexStart.numConstAllocs ∧
    (FpVar.squareEquals (.Constant 2) (.Var ⟨some 4, Variable.wit 0, true⟩) sqCexStart).constraints
      = sqCexStart.constraints ++
        [([((1 : ZMod 5), Variable.wit 1)], [(1, Variable.wit 1)], [(1, Variable.wit 0)])] ∧
    ¬ (FpVar.squareEquals (.Constant 2) (.Var ⟨some 4, Variable.wit 0, true⟩) sqCexStart).numWitness
      = sqCexStart.numWitness := by
  refine ⟨by decide, by decide, by decide, by decide⟩

/-- C4 (amended): in `mul_equals` a constant is materialized into a freshly
allocated constant variable exactly when exactly one side of the final
equality check — the expected result against the folded product — is a
compile-time constant: in the shape (Var, Var, Constant) directly, and in
the free-product shapes (Constant, Constant, Var), (Constant, Var,
Constant), (Var, Constant, Constant) through the delegated `enforce_equal`;
the remaining shapes allocate no constant variable.  `square_equals` never
allocates a constant variable: in each mixed constant/variable shape it
materializes the constant side into a freshly allocated *witness* variable
and enforces one genuine squaring constraint. -/
theorem mulEquals_squareEquals_materialization (F : Type) [Field F] [DecidableEq F]
    (a b r : F) (va vb vr : AllocatedFp F) (cs : ConstraintSystem F) :
    (FpVar.mulEquals (.Constant a) (.Constant b) (.Constant r) cs = cs) ∧
    ((FpVar.mulEquals (.Constant a) (.Constant b) (.Var vr) cs).numConstAllocs
        = cs.numConstAllocs + 1 ∧
     (FpVar.mulEquals (.Constant a) (.Constant b) (.Var vr) cs).numWitness
        = cs.numWitness) ∧
    ((FpVar.mulEquals (.Constant a) (.Var vb) (.Var vr) cs).numConstAllocs
        = cs.numConstAllocs ∧
     (FpVar.mulEquals (.Constant a) (.Var vb) (.Var vr) cs).numWitness
        = cs.numWitness) ∧
    ((FpVar.mulEquals (.Var va) (.Constant b) (.Var vr) cs).numConstAllocs
        = cs.numConstAllocs ∧
     (FpVar.mulEquals (.Var va) (.Constant b) (.Var vr) cs).numWitness
        = cs.numWitness) ∧
    ((FpVar.mulEquals (.Constant a) (.Var vb) (.Constant r) cs).numConstAllocs
        = cs.numConstAllocs + 1) ∧
    ((FpVar.mulEquals (.Var va) (.Constant b) (.Constant r) cs).numConstAllocs
        = cs.numConstAllocs + 1) ∧
    (FpVar.mulEquals (.Var va) (.Var vb) (.Var vr) cs
        = cs.enforce [(1, va.var)] [(1, vb.var)] [(1, vr.var)]) ∧
    ((FpVar.mulEquals (.Var va) (.Var vb) (.Constant r) cs).numConstAllocs
        = cs.numConstAllocs + 1 ∧
     (FpVar.mulEquals (.Var va) (.Var vb) (.Constant r) cs).constraints
        = cs.constraints ++
          [([(1, va.var)], [(1, vb.var)], [((1 : F), Variable.slc cs.lcs.length)])]) ∧
    (FpVar.squareEquals (.Constant a) (.Constant r) cs = cs) ∧
    ((FpVar.squareEquals (.Constant a) (.Var vr) cs).numConstAllocs
        = cs.numConstAllocs ∧
     (FpVar.squareEquals (.Constant a) (.Var vr) cs).numWitness
        = cs.numWitness + 1 ∧
     (FpVar.squareEquals (.Constant a) (.Var vr) cs).constraints
        = cs.constraints ++
          [([((1 : F), Variable.wit cs.numWitness)],
            [(1, Variable.wit cs.numWitness)], [(1, vr.var)])]) ∧
    ((FpVar.squareEquals (.Var va) (.Constant r) cs).numConstAllocs
        = cs.numConstAllocs ∧
     (FpVar.squareEquals (.Var va) (.Constant r) cs).numWitness
        = cs.numWitness + 1 ∧
     (FpVar.squareEquals (.Var va) (.Constant r) cs).constraints
        = cs.constraints ++
          [([((1 : F), va.var)], [(1, va.var)], [(1, Variable.wit cs.numWitness)])]) ∧
    (FpVar.squareEquals (.Var va) (.Var vr) cs
        = cs.enforce [(1, va.var)] [(1, va.var)] [(1, vr.var)]) := by
  refine ⟨rfl, ⟨rfl, rfl⟩, ?_, ?_, ?_, ?_, rfl, ⟨rfl, rfl⟩, rfl, ⟨rfl, rfl, rfl⟩,
    ⟨rfl, rfl, rfl⟩, rfl⟩
  · constructor <;>
      (simp only [FpVar.mulEquals, FpVar.mul, AllocatedFp.mulConstant,
        FpVar.enforceEqual, AllocatedFp.enforceEqualTrue, ConstraintSystem.enforce,
        ConstraintSystem.newLc]
       split <;> rfl)
  · constructor <;>
      (simp only [FpVar.mulEquals, FpVar.mul, AllocatedFp.mulConstant,
        FpVar.enforceEqual, AllocatedFp.enforceEqualTrue, ConstraintSystem.enforce,
        ConstraintSystem.newLc]
       split <;> rfl)
  · simp only [FpVar.mulEquals, FpVar.mul, AllocatedFp.mulConstant,
      FpVar.enforceEqual, AllocatedFp.newConstant, AllocatedFp.enforceEqualTrue,
      ConstraintSystem.enforce, ConstraintSystem.newLc]
    split <;> rfl
  · simp only [FpVar.mulEquals, FpVar.mul, AllocatedFp.mulConstant,
      FpVar.enforceEqual, AllocatedFp.newConstant, AllocatedFp.enforceEqualTrue,
      ConstraintSystem.enforce, ConstraintSystem.newLc]
    split <;> rfl

/-- C1: for witnesses `xv`, `yv` allocated in a fresh system, `is_eq`
returns a boolean whose witness is true exactly when `xv = yv`; the gadget
adds exactly the two rank-one constraints
`(x − y) · multiplier = is_not_equal` and `(x − y) · (1 − is_not_equal) = 0`
(and nothing else), with the auxiliary `multiplier` witness stored as the
inverse of `xv − yv` when the values differ and as `1` when they are equal;
and the resulting system is satisfied by the true-witness assignment in both
the equal and the unequal case. -/
theorem isEq_spec (F : Type) [Field F] [DecidableEq F] (xv yv : F) :
    (isEqScenario F xv yv).1.value = some (decide (xv = yv)) ∧
    (isEqScenario F xv yv).2.constraints =
      [([((1 : F), Variable.slc 0)], [(1, Variable.wit 3)], [(1, Variable.wit 2)]),
       ([((1 : F), Variable.slc 0)], [((1 : F), Variable.one), (-1, Variable.wit 2)], [])] ∧
    (isEqScenario F xv yv).2.witValues.getD 3 none
      = some (if xv = yv then 1 else (xv - yv)⁻¹) ∧
    (isEqScenario F xv yv).2.witValues.getD 2 none
      = some (if xv = yv then 0 else 1) ∧
    isEqAssign F xv yv Variable.one = 1 ∧
    isEqAssign F xv yv (Variable.wit 0) = xv ∧
    isEqAssign F xv yv (Variable.wit 1) = yv ∧
    witConsistent (isEqAssign F xv yv) (isEqScenario F xv yv).2 ∧
    lcsConsistent (isEqAssign F xv yv) (isEqScenario F xv yv).2 ∧
    satAll (isEqAssign F xv yv) (isEqScenario F xv yv).2 := by
  have hsc : isEqScenario F xv yv =
      (BoolVar.bvar (some (!decide (xv ≠ yv)))
         [(1, Variable.one), (-1, Variable.wit 2)],
       { numWitness := 4,
         witValues := [some xv, some yv, some (b2f (decide (xv ≠ yv))),
           some (if xv ≠ yv then (xv - yv)⁻¹ else 1)],
         lcs := [[(1, Variable.wit 0), (-1, Variable.wit 1)]],
         constraints := [([(1, Variable.slc 0)], [(1, Variable.wit 3)], [(1, Variable.wit 2)]),
           ([(1, Variable.slc 0)], [(1, Variable.one), (-1, Variable.wit 2)], [])],
         numConstAllocs := 0, inFieldAsserts := [] }) := rfl
  refine ⟨?_, ?_, ?_, ?_, rfl, rfl, rfl, ?_, ?_, ?_⟩
  · rw [hsc]
    simp [BoolVar.value, decide_not]
  · rw [hsc]
  · rw [hsc]
    by_cases h : xv = yv <;> simp [h]
  · rw [hsc]
    by_cases h : xv = yv <;> simp [h, b2f]
  · intro i w h
    rw [hsc] at h
    rcases i with _ | _ | _ | _ | i
    · rw [List.getD_cons_zero] at h
      simp only [Option.some.injEq] at h
      simp [isEqAssign, h]
    · rw [List.getD_cons_succ, List.getD_cons_zero] at h
      simp only [Option.some.injEq] at h
      simp [isEqAssign, h]
    · rw [List.getD_cons_succ, List.getD_cons_succ, List.getD_cons_zero] at h
      simp only [Option.some.injEq] at h
      rw [← h]
      by_cases heq : xv = yv <;> simp [isEqAssign, b2f, heq]
    · rw [List.getD_cons_succ, List.getD_cons_succ, List.getD_cons_succ,
        List.getD_cons_zero] at h
      simp only [Option.some.injEq] at h
      rw [← h]
      by_cases heq : xv = yv <;> simp [isEqAssign, heq]
    · simp at h
  · intro i hi
    rw [hsc] at hi ⊢
    simp only [List.length_cons, List.length_nil] at hi
    have hi0 : i = 0 := by omega
    subst hi0
    simp [isEqAssign, evalLC]
    ring
  · intro c hc
    rw [hsc] at hc
    simp only [List.mem_cons, List.not_mem_nil, or_false] at hc
    rcases hc with hc | hc <;> subst hc <;>
      by_cases h : xv = yv <;>
        simp [satC, evalLC, isEqAssign, h, b2f, sub_ne_zero]

/-- Witness for C1 over `ZMod 5` in both branches: the unequal pair (2, 3)
and the equal pair (2, 2). -/
theorem isEq_spec_witness :
    (isEqScenario (ZMod 5) 2 3).1.value = some (decide ((2 : ZMod 5) = 3)) ∧
    (isEqScenario (ZMod 5) 2 2).1.value = some (decide ((2 : ZMod 5) = 2)) ∧
    satAll (isEqAssign (ZMod 5) 2 3) (isEqScenario (ZMod 5) 2 3).2 :=
  ⟨(isEq_spec (ZMod 5) 2 3).1, (isEq_spec (ZMod 5) 2 2).1,
   (isEq_spec (ZMod 5) 2 3).2.2.2.2.2.2.2.2.2⟩

/-- C2: `inverse` on a freshly allocated witness `xv` allocates exactly one
new witness — stored as `xv⁻¹`, which is the multiplicative inverse for
nonzero `xv` and the additive identity for `xv = 0` — and enforces the
single constraint `x · inverse = One` (no other constraint, no linear
combination).  For nonzero `xv` the true-witness assignment satisfies the
system (in particular `xv * xv⁻¹ = 1`); for `xv = 0` no assignment that maps
`One` to `1` and `x`'s variable to `0` satisfies the constraint, so the
violation surfaces only at the satisfiability check, not at call time. -/
theorem inverse_spec (F : Type) [Field F] (xv : F) :
    (inverseScenario F xv).1.value = some xv⁻¹ ∧
    (xv = 0 → (inverseScenario F xv).1.value = some 0) ∧
    (inverseScenario F xv).2.numWitness = 2 ∧
    (inverseScenario F xv).2.constraints =
      [([((1 : F), Variable.wit 0)], [(1, Variable.wit 1)], [(1, Variable.one)])] ∧
    (inverseScenario F xv).2.lcs = [] ∧
    (xv ≠ 0 →
      inverseAssign F xv Variable.one = 1 ∧
      inverseAssign F xv (Variable.wit 0) = xv ∧
      witConsistent (inverseAssign F xv) (inverseScenario F xv).2 ∧
      satAll (inverseAssign F xv) (inverseScenario F xv).2) ∧
    (xv = 0 → ∀ a : Variable → F, a Variable.one = 1 → a (Variable.wit 0) = 0 →
      ¬ satAll a (inverseScenario F xv).2) := by
  have hsc : inverseScenario F xv =
      (⟨some xv⁻¹, Variable.wit 1, true⟩,
       { numWitness := 2, witValues := [some xv, some xv⁻¹], lcs := [],
         constraints := [([(1, Variable.wit 0)], [(1, Variable.wit 1)], [(1, Variable.one)])],
         numConstAllocs := 0, inFieldAsserts := [] }) := rfl
  refine ⟨rfl, ?_, rfl, rfl, rfl, ?_, ?_⟩
  · intro h
    rw [hsc]
    simp [h]
  · intro hx
    refine ⟨rfl, rfl, ?_, ?_⟩
    · intro i w h
      rw [hsc] at h
      rcases i with _ | _ | i
      · rw [List.getD_cons_zero] at h
        simp only [Option.some.injEq] at h
        simp [inverseAssign, h]
      · rw [List.getD_cons_succ, List.getD_cons_zero] at h
        simp only [Option.some.injEq] at h
        simp [inverseAssign, h]
      · simp at h
    · intro c hc
      rw [hsc] at hc
      simp only [List.mem_cons, List.not_mem_nil, or_false] at hc
      subst hc
      simp [satC, evalLC, inverseAssign]
      exact mul_inv_cancel₀ hx
  · intro hx a h1 h0 hsat
    have hc := hsat ([(1, Variable.wit 0)], [(1, Variable.wit 1)], [(1, Variable.one)])
      (by rw [hsc]; exact List.mem_cons_self _ _)
    rw [satC] at hc
    simp [evalLC, h1, h0] at hc

/-- Witness for C2 at the nonzero input `2` over `ZMod 5`. -/
theorem inverse_spec_witness :
    (2 : ZMod 5) ≠ 0 ∧
    (inverseScenario (ZMod 5) 2).1.value = some (2 : ZMod 5)⁻¹ ∧
    satAll (inverseAssign (ZMod 5) 2) (inverseScenario (ZMod 5) 2).2 :=
  ⟨by decide, (inverse_spec (ZMod 5) 2).1,
   ((inverse_spec (ZMod 5) 2).2.2.2.2.2.1 (by decide)).2.2.2⟩

/-- C6: the pairing precomputation, given an input whose infinity flag can
be the identity marker, returns normally (`.ok`, no panic and no immediate
error) and registers exactly one additional constraint — the
`enforce_not_equal` of the infinity flag against `TRUE` — such that every
assignment mapping `One` to `1` under which the infinity flag evaluates to
`1` (the point at infinity) falsifies that constraint: the violated
precondition surfaces as an unsatisfiable constraint system, detected only
when satisfiability is later checked, never at call time. -/
theorem fromGroupVar_identity_unsat (F : Type) [Field F] (b : BoolVar F)
    (limbs : List Nat) (cs : ConstraintSystem F) :
    ∃ cs', G2PreparedVar.fromGroupVar b limbs cs = .ok (millerSteps limbs, cs') ∧
      cs'.constraints = cs.constraints ++
        [(b.lc ++ [(-1, Variable.one)],
          [((1 : F), Variable.wit cs.numWitness)], [(1, Variable.one)])] ∧
      cs'.lcs = cs.lcs ∧
      cs'.numWitness = cs.numWitness + 1 ∧
      (∀ a : Variable → F, a Variable.one = 1 → evalLC a b.lc = 1 →
        ¬ satC a (b.lc ++ [(-1, Variable.one)],
            [((1 : F), Variable.wit cs.numWitness)], [(1, Variable.one)])) := by
  refine ⟨_, rfl, rfl, rfl, rfl, ?_⟩
  intro a h1 hinf hsat
  rw [satC, evalLC_append] at hsat
  rw [evalLC] at hinf
  simp [evalLC, h1, hinf] at hsat

/-- Witness for C6: a variable-backed infinity flag that is true (the point
at infinity), over `ZMod 5`. -/
theorem fromGroupVar_identity_unsat_witness :
    ∃ cs', G2PreparedVar.fromGroupVar
        (BoolVar.bvar (some true) [(1, Variable.wit 0)]) [3] ipCexStart
        = .ok (millerSteps [3], cs') ∧
      cs'.constraints = ipCexStart.constraints ++
        [((BoolVar.bvar (some true) [((1 : ZMod 5), Variable.wit 0)]).lc ++ [(-1, Variable.one)],
          [((1 : ZMod 5), Variable.wit ipCexStart.numWitness)], [(1, Variable.one)])] ∧
      cs'.lcs = ipCexStart.lcs ∧
      cs'.numWitness = ipCexStart.numWitness + 1 ∧
      (∀ a : Variable → ZMod 5, a Variable.one = 1 →
        evalLC a (BoolVar.bvar (some true) [((1 : ZMod 5), Variable.wit 0)]).lc = 1 →
        ¬ satC a ((BoolVar.bvar (some true) [((1 : ZMod 5), Variable.wit 0)]).lc ++ [(-1, Variable.one)],
            [((1 : ZMod 5), Variable.wit ipCexStart.numWitness)], [(1, Variable.one)])) :=
  fromGroupVar_identity_unsat (ZMod 5)
    (BoolVar.bvar (some true) [(1, Variable.wit 0)]) [3] ipCexStart

/-! ### Bit-decomposition machinery -/

theorem allocBools_spec {F : Type} [Ring F] (vs : List (Option Bool)) (cs : ConstraintSystem F) :
    allocBools vs cs =
      ((List.range vs.length).map (fun i =>
          (BoolVar.bvar (vs.getD i none) [(1, Variable.wit (cs.numWitness + i))],
           Variable.wit (cs.numWitness + i))),
       { cs with
         numWitness := cs.numWitness + vs.length,
         witValues := cs.witValues ++ vs.map (fun v => v.map b2f),
         constraints := cs.constraints ++ (List.range vs.length).map (fun i =>
           ([((1 : F), Variable.wit (cs.numWitness + i))],
            [(1, Variable.one), (-1, Variable.wit (cs.numWitness + i))], [])) }) := by
  induction vs generalizing cs with
  | nil =>
    simp [allocBools]
  | cons v t ih =>
    simp only [allocBools, ConstraintSystem.newWitnessVariable, ConstraintSystem.enforce]
    rw [ih]
    simp only [List.length_cons, List.range_succ_eq_map, List.map_cons, List.map_map]
    simp only [Prod.mk.injEq]
    refine ⟨?_, ?_⟩
    · rw [List.getD_cons_zero, Nat.add_zero]
      congr 1
      refine List.map_congr_left ?_
      intro i hi
      have hn : cs.numWitness + 1 + i = cs.numWitness + (i + 1) := by omega
      simp [Function.comp, List.getD_cons_succ, hn]
    · have hmap : (List.map (fun i =>
            ([((1 : F), Variable.wit (cs.numWitness + 1 + i))],
             [((1 : F), Variable.one), (-1, Variable.wit (cs.numWitness + 1 + i))], ([] : LC F)))
            (List.range t.length))
          = List.map ((fun i =>
              ([((1 : F), Variable.wit (cs.numWitness + i))],
               [((1 : F), Variable.one), (-1, Variable.wit (cs.numWitness + i))], ([] : LC F))) ∘ Nat.succ)
              (List.range t.length) := by
        refine List.map_congr_left ?_
        intro i hi
        have hn : cs.numWitness + 1 + i = cs.numWitness + (i + 1) := by omega
        simp [Function.comp, hn]
      simp only [ConstraintSystem.mk.injEq, hmap, Nat.add_zero, List.append_assoc,
        List.singleton_append, List.cons_append]
      refine ⟨by omega, by simp, trivial, by simp, trivial, trivial⟩

theorem sum_bits_mod (x : Nat) (k : Nat) :
    ((List.range k).map (fun i => if x.testBit i then 2 ^ i else 0)).sum = x % 2 ^ k := by
  induction k with
  | zero => simp [Nat.mod_one]
  | succ k ih =>
    rw [List.range_succ, List.map_append, List.sum_append, ih]
    simp only [List.map_cons, List.map_nil, List.sum_cons, List.sum_nil, add_zero]
    have h2 : (2 : Nat) ^ (k + 1) = 2 ^ k * 2 := by ring
    rw [h2, Nat.mod_mul]
    have hd := Nat.testBit_to_div_mod (x := x) (i := k)
    congr 1
    cases hb : x.testBit k with
    | false =>
      rw [hb] at hd
      have hne : ¬ (x / 2 ^ k % 2 = 1) := of_decide_eq_false hd.symm
      have hlt : x / 2 ^ k % 2 < 2 := Nat.mod_lt _ (by omega)
      have h0 : x / 2 ^ k % 2 = 0 := by omega
      simp [h0]
    | true =>
      rw [hb] at hd
      have h1 : x / 2 ^ k % 2 = 1 := of_decide_eq_true hd.symm
      simp [h1]

theorem sum_bits_eq (x k : Nat) (h : x < 2 ^ k) :
    ((List.range k).map (fun i => if x.testBit i then 2 ^ i else 0)).sum = x := by
  rw [sum_bits_mod]
  exact Nat.mod_eq_of_lt h

theorem getD_map_range {α : Type} (f : Nat → α) (d : α) (k i : Nat) (h : i < k) :
    (((List.range k).map f).getD i d) = f i := by
  rw [List.getD_eq_getElem?_getD, List.getElem?_map, List.getElem?_range h]
  rfl

theorem allocBools_range_spec {F : Type} [Ring F] (g : Nat → Option Bool) (k : Nat)
    (cs : ConstraintSystem F) :
    allocBools ((List.range k).map g) cs =
      ((List.range k).map (fun i =>
          (BoolVar.bvar (g i) [(1, Variable.wit (cs.numWitness + i))],
           Variable.wit (cs.numWitness + i))),
       { cs with
         numWitness := cs.numWitness + k,
         witValues := cs.witValues ++ (List.range k).map (fun i => (g i).map b2f),
         constraints := cs.constraints ++ (List.range k).map (fun i =>
           ([((1 : F), Variable.wit (cs.numWitness + i))],
            [((1 : F), Variable.one), (-1, Variable.wit (cs.numWitness + i))], ([] : LC F))) }) := by
  rw [allocBools_spec]
  simp only [List.length_map, List.length_range, List.map_map]
  simp only [Prod.mk.injEq, ConstraintSystem.mk.injEq]
  refine ⟨?_, by trivial, by trivial, by trivial, by trivial, by trivial, by trivial⟩
  refine List.map_congr_left ?_
  intro i hi
  rw [List.mem_range] at hi
  rw [getD_map_range g none k i hi]

theorem bitsScenario_eq (p k : Nat) [NeZero p] (xv : ZMod p) :
    bitsScenario p k xv =
      ((List.range k).map (fun i =>
          BoolVar.bvar (some (xv.val.testBit i)) [(1, Variable.wit (1 + i))]),
       { numWitness := 1 + k,
         witValues := some xv :: (List.range k).map (fun i => some (b2f (xv.val.testBit i))),
         lcs := [],
         constraints := (List.range k).map (fun i =>
            ([((1 : ZMod p), Variable.wit (1 + i))],
             [((1 : ZMod p), Variable.one), (-1, Variable.wit (1 + i))], ([] : LC (ZMod p))))
           ++ [(([] : LC (ZMod p)), ([] : LC (ZMod p)),
             (List.range k).map (fun i => ((2 ^ i : ZMod p), Variable.wit (1 + i))) ++ [(-1, Variable.wit 0)])],
         numConstAllocs := 0, inFieldAsserts := [] }) := by
  unfold bitsScenario AllocatedFp.newWitness AllocatedFp.toNonUniqueBitsLE
  simp only [ConstraintSystem.newWitnessVariable, ConstraintSystem.enforce]
  rw [allocBools_range_spec]
  simp only [List.map_map, List.length_map, List.length_range, List.zip_map']
  rfl

/-- C8: with `k` the modulus bit length (pinned by `2^(k−1) ≤ p < 2^k`),
`to_non_unique_bits_le` on a freshly allocated witness `x` produces exactly
`k` little-endian boolean variables whose witnesses are the bits of `x`, and
the weighted sum of those bits by powers of two reconstructs `x.val`
exactly; the enforced constraints are the `k` booleanity constraints plus
exactly one *linear* constraint (both product sides empty) whose
combination evaluates, under any assignment, to the weighted bit-sum minus
`x` — the reconstruction identity.  `to_bits_le` produces the same bits and
the same constraints and additionally records the strictly-below-modulus
assertion on the bit-string, which `to_non_unique_bits_le` does not. -/
theorem toBits_spec (p k : Nat) [NeZero p] (xv : ZMod p)
    (hk : p < 2 ^ k) (_hk1 : 2 ^ (k - 1) ≤ p) :
    (bitsScenario p k xv).1.length = k ∧
    (bitsScenario p k xv).1 = (List.range k).map (fun i =>
        BoolVar.bvar (some (xv.val.testBit i)) [(1, Variable.wit (1 + i))]) ∧
    ((List.range k).map (fun i => if xv.val.testBit i then 2 ^ i else 0)).sum = xv.val ∧
    (bitsScenario p k xv).2.constraints =
      (List.range k).map (fun i =>
        ([((1 : ZMod p), Variable.wit (1 + i))],
         [((1 : ZMod p), Variable.one), (-1, Variable.wit (1 + i))], ([] : LC (ZMod p))))
      ++ [(([] : LC (ZMod p)), ([] : LC (ZMod p)),
           (List.range k).map (fun i => ((2 ^ i : ZMod p), Variable.wit (1 + i)))
             ++ [(-1, Variable.wit 0)])] ∧
    (∀ a : Variable → ZMod p,
        evalLC a ((List.range k).map (fun i => ((2 ^ i : ZMod p), Variable.wit (1 + i)))
            ++ [(-1, Variable.wit 0)])
          = ((List.range k).map (fun i => (2 ^ i : ZMod p) * a (Variable.wit (1 + i)))).sum
              - a (Variable.wit 0)) ∧
    (bitsScenario p k xv).2.inFieldAsserts = [] ∧
    (bitsUScenario p k xv).1 = (bitsScenario p k xv).1 ∧
    (bitsUScenario p k xv).2.constraints = (bitsScenario p k xv).2.constraints ∧
    (bitsUScenario p k xv).2.inFieldAsserts = [(bitsScenario p k xv).1.map BoolVar.lc] := by
  have hsc := bitsScenario_eq p k xv
  have hU : bitsUScenario p k xv = ((bitsScenario p k xv).1,
      { (bitsScenario p k xv).2 with
         inFieldAsserts := (bitsScenario p k xv).2.inFieldAsserts
           ++ [(bitsScenario p k xv).1.map BoolVar.lc] }) := rfl
  have hval : xv.val < 2 ^ k := lt_trans (ZMod.val_lt xv) hk
  refine ⟨?_, ?_, sum_bits_eq xv.val k hval, ?_, ?_, ?_, ?_, ?_, ?_⟩
  · rw [hsc]
    simp
  · rw [hsc]
  · rw [hsc]
  · intro a
    rw [evalLC_append]
    have hm : List.map ((fun t : ZMod p × Variable => t.1 * a t.2) ∘
          fun i => ((2 ^ i : ZMod p), Variable.wit (1 + i))) (List.range k)
        = List.map (fun i => (2 ^ i : ZMod p) * a (Variable.wit (1 + i))) (List.range k) :=
      List.map_congr_left (fun i _ => rfl)
    simp only [evalLC, List.map_map, hm]
    simp [sub_eq_add_neg]
  · rw [hsc]
  · rw [hU]
  · rw [hU]
  · rw [hU, hsc]
    simp

/-- Witness for C8 at `p = 5`, `k = 3` (the bit length of 5), `x = 3`. -/
theorem toBits_spec_witness :
    (5 : Nat) < 2 ^ 3 ∧ 2 ^ (3 - 1) ≤ 5 ∧
    (bitsScenario 5 3 (3 : ZMod 5)).1.length = 3 ∧
    ((List.range 3).map (fun i => if (3 : ZMod 5).val.testBit i then 2 ^ i else 0)).sum
      = (3 : ZMod 5).val :=
  ⟨by decide, by decide,
   (toBits_spec 5 3 3 (by decide) (by decide)).1,
   (toBits_spec 5 3 3 (by decide) (by decide)).2.2.1⟩
